import Mathlib

/-!
Verification of the kash knowledge-compiler core (Go sources) against its
natural-language specification.

Go strings are modelled as `List Char` (one element per rune).  Go byte
lengths and rune lengths coincide on the ASCII inputs used throughout; where
a claim is refuted this is always witnessed on ASCII data.  Go `int` values
appear as `Int` where negative values are reachable and as `Nat` where the
surrounding code guarantees non-negativity.  `float32` similarity values are
modelled as rationals, and `fmt.Sprintf` with `%.2f` as decimal rendering of
a rational rounded to two places.  Fallible Go functions return `Except`.
-/

/-- Convert a Lean string literal to the `List Char` model of a Go string. -/
def str (s : String) : List Char := s.toList

/-- The backtick character (written via its code point). -/
def backtick : Char := Char.ofNat 96

/-- Whitespace as recognised by Go `unicode.IsSpace` on the Latin-1 range
(space, tab, newline, vertical tab, form feed, carriage return, NEL, NBSP). -/
def isGoSpace (c : Char) : Bool :=
  c = ' ' || c = '\t' || c = '\n' || c = Char.ofNat 11 || c = Char.ofNat 12 ||
  c = '\r' || c = Char.ofNat 133 || c = Char.ofNat 160

/-- Leading-whitespace trim (`strings.TrimSpace`, left side). -/
def trimLeft (l : List Char) : List Char := l.dropWhile isGoSpace

/-- Trailing-whitespace trim (`strings.TrimSpace`, right side). -/
def trimRight (l : List Char) : List Char := (l.reverse.dropWhile isGoSpace).reverse

/-- Go `strings.TrimSpace`. -/
def trimSpace (l : List Char) : List Char := trimLeft (trimRight l)

/-- Go `strings.TrimPrefix`: drop `pre` when it is a prefix, else identity. -/
def goStripPre (pre l : List Char) : List Char :=
  if pre.isPrefixOf l then l.drop pre.length else l

/-- Go `strings.TrimSuffix`: drop `suf` when it is a suffix, else identity. -/
def goStripSuf (suf l : List Char) : List Char :=
  if suf.isSuffixOf l then l.take (l.length - suf.length) else l

/-- Go `strings.ToLower`, restricted to ASCII case mapping. -/
def toLowerL (l : List Char) : List Char := l.map Char.toLower

/-- Go `strings.Contains`: `needle` occurs as a contiguous substring. -/
def containsSub (needle : List Char) : List Char → Bool
  | [] => needle.isEmpty
  | c :: t => needle.isPrefixOf (c :: t) || containsSub needle t

/-- Go `strings.Join(values, " ")`. -/
def joinSpace : List (List Char) → List Char
  | [] => []
  | [x] => x
  | x :: y :: rest => x ++ ' ' :: joinSpace (y :: rest)

/-- Helper for `fields`: accumulate the current token (reversed) while
scanning, emitting a token at each whitespace run. -/
def fieldsAux : List Char → List Char → List (List Char)
  | [], cur => if cur = [] then [] else [cur.reverse]
  | c :: rest, cur =>
    if isGoSpace c then
      if cur = [] then fieldsAux rest [] else cur.reverse :: fieldsAux rest []
    else fieldsAux rest (c :: cur)

/-- Go `strings.Fields`: split on whitespace runs, dropping empty tokens. -/
def fields (l : List Char) : List (List Char) := fieldsAux l []

/-- Digit loop of the Go helper `itoa` in the chunker package, with fuel
(the first argument) standing in for the terminating division chain; fuel
equal to the number itself always suffices. -/
def itoaAux : Nat → Nat → List Char
  | 0, _ => []
  | fuel + 1, n =>
    if n = 0 then [] else itoaAux fuel (n / 10) ++ [Char.ofNat (48 + n % 10)]

/-- Go-side `itoa` from the chunker package (also models `%d`). -/
def itoa (i : Nat) : List Char := if i = 0 then ['0'] else itoaAux i i

section EmbeddingClients

variable {α : Type}

/-!
## C2 — vector store embedding function (`newEmbeddingFuncWithDimensions`,
src/internal/vector/store.go).

Only the pure post-processing of the decoded HTTP response is modelled: the
response's `data` array of embedding vectors is the input.  Embedding scalars
(`float32` in Go) are an arbitrary type `α`: the function never inspects
them.  `dims` is the configured `cfg.Dimensions` (a Go `int`).
-/

/-- Response handling of the embedding function returned by
`newEmbeddingFuncWithDimensions`: error when no embeddings came back,
otherwise take the first vector, truncating it to `dims` only when it is
strictly longer. -/
def embedFuncPost (dims : Int) (data : List (List α)) : Except (List Char) (List α) :=
  match data with
  | [] => .error (str "embedding API returned no embeddings")
  | v :: _ =>
    if v.isEmpty then .error (str "embedding API returned no embeddings")
    else if 0 < dims ∧ dims < (v.length : Int) then .ok (v.take dims.toNat)
    else .ok v

/-!
## C3 — embedding client `EmbedBatch` (src/internal/llm/embedder.go).

The request built for a non-empty batch and the extraction of vectors from
the decoded response are modelled; the HTTP transport is external.  Optional
JSON fields (`omitempty`) are `Option`: `none` means the field is absent
from the serialized body.
-/

/-- The `embedRequest` body as serialized: struct fields guarded by
`omitempty`. -/
structure EmbedReq where
  input : List (List Char)
  modelField : Option (List Char)
  dimensionsField : Option Int
deriving DecidableEq, Repr

/-- Request construction in `EmbedBatch`: `Model` is set only when the
configured model is non-empty, `Dimensions` only when the configured
dimensions are positive (`omitempty` drops the zero value either way). -/
def embedBatchRequest (model : List Char) (dims : Int) (texts : List (List Char)) : EmbedReq :=
  { input := texts
  , modelField := if model = [] then none else some model
  , dimensionsField := if 0 < dims then some dims else none }

/-- Response handling in `EmbedBatch`: place each returned `(index,
embedding)` pair verbatim into a slot of a `len(texts)`-sized result
(out-of-range indices ignored, matching the `d.Index < len(result)` guard;
`List.set` is likewise a no-op out of range).  `none` models a Go nil slice
slot never written. -/
def embedBatchResult (n : Nat) (data : List (Nat × List α)) : List (Option (List α)) :=
  data.foldl (fun res d => res.set d.1 (some d.2)) (List.replicate n none)

end EmbeddingClients

/-!
## C6 — runtime auth middleware (`authMiddleware`, src/unnamed/part_014).

The decision the middleware takes for one request, as a function of the
configured key and the request's path, method and `Authorization` header.
The rejection branch writes status 401 with `Content-Type:
application/json` and a JSON object whose single `error` field carries
`authMessage`.
-/

/-- Outcome of the auth middleware for one request. -/
inductive AuthDecision where
  | pass
  | reject (status : Nat) (contentType : List Char) (errorMessage : List Char)
deriving DecidableEq, Repr

/-- The `error` field of the 401 JSON body. -/
def authMessage : List Char :=
  str "invalid or missing API key — pass via Authorization: Bearer <AGENT_API_KEY>"

/-- The literal header prefix checked by the middleware. -/
def bearer : List Char := str "Bearer "

/-- `authMiddleware`: open access without a key; `/health` and CORS
preflight always pass; otherwise the header must be exactly
`Bearer <key>` (no-prefix or mismatch rejects with 401). -/
def authMiddleware (apiKey path method authHeader : List Char) : AuthDecision :=
  if apiKey = [] then .pass
  else if path = str "/health" then .pass
  else if method = str "OPTIONS" then .pass
  else if !(bearer.isPrefixOf authHeader) || goStripPre bearer authHeader ≠ apiKey then
    .reject 401 (str "application/json") authMessage
  else .pass

/-- Exact-header characterisation of the bearer check. -/
theorem bearer_check_iff (hdr key : List Char) :
    (bearer.isPrefixOf hdr = true ∧ goStripPre bearer hdr = key) ↔ hdr = bearer ++ key := by
  constructor
  · rintro ⟨hpre, hrest⟩
    have hp : bearer <+: hdr := by
      exact List.isPrefixOf_iff_prefix.mp hpre
    obtain ⟨t, ht⟩ := hp
    subst ht
    unfold goStripPre at hrest
    rw [if_pos hpre] at hrest
    rw [List.drop_left] at hrest
    rw [hrest]
  · intro h
    subst h
    have hpre : bearer.isPrefixOf (bearer ++ key) = true := by
      exact List.isPrefixOf_iff_prefix.mpr ⟨key, rfl⟩
    refine ⟨hpre, ?_⟩
    unfold goStripPre
    rw [if_pos hpre, List.drop_left]

/-- C6: with a configured key, non-`/health` non-OPTIONS requests pass the
middleware exactly when the Authorization header is `Bearer <key>`, and are
otherwise rejected with a 401 JSON error; `/health`, OPTIONS, and the
no-key configuration always pass. -/
theorem auth_middleware_spec (key path method hdr : List Char) :
    authMiddleware [] path method hdr = .pass
    ∧ authMiddleware key (str "/health") method hdr = .pass
    ∧ (key ≠ [] → authMiddleware key path (str "OPTIONS") hdr = .pass)
    ∧ (key ≠ [] → path ≠ str "/health" → method ≠ str "OPTIONS" →
        (authMiddleware key path method hdr = .pass ↔ hdr = bearer ++ key)
        ∧ (hdr ≠ bearer ++ key →
            authMiddleware key path method hdr =
              .reject 401 (str "application/json") authMessage)) := by
  refine ⟨by simp [authMiddleware], ?_, ?_, ?_⟩
  · by_cases hk : key = ([] : List Char) <;> simp [authMiddleware, hk]
  · intro hk
    by_cases hp : path = str "/health" <;> simp [authMiddleware, hk, hp]
  · intro hk hp hm
    have main : authMiddleware key path method hdr =
        (if !(bearer.isPrefixOf hdr) || goStripPre bearer hdr ≠ key then
          AuthDecision.reject 401 (str "application/json") authMessage
        else .pass) := by
      simp [authMiddleware, hk, hp, hm]
    constructor
    · rw [main]
      by_cases hc : (!(bearer.isPrefixOf hdr) || goStripPre bearer hdr ≠ key : Bool) = true
      · rw [if_pos hc]
        constructor
        · intro h; cases h
        · intro h
          exfalso
          have := (bearer_check_iff hdr key).mpr h
          simp [this.1, this.2] at hc
      · rw [if_neg hc]
        simp only [Bool.or_eq_true, Bool.not_eq_true', decide_eq_true_eq] at hc
        push_neg at hc
        constructor
        · intro _
          exact (bearer_check_iff hdr key).mp
            ⟨by simpa using hc.1, by simpa using hc.2⟩
        · intro _; rfl
    · intro hne
      rw [main]
      by_cases hc : (!(bearer.isPrefixOf hdr) || goStripPre bearer hdr ≠ key : Bool) = true
      · rw [if_pos hc]
      · exfalso
        simp only [Bool.or_eq_true, Bool.not_eq_true', decide_eq_true_eq] at hc
        push_neg at hc
        exact hne ((bearer_check_iff hdr key).mp ⟨by simpa using hc.1, by simpa using hc.2⟩)

/-- Witness for `auth_middleware_spec` at a concrete key, path, method and
matching/mismatching headers. -/
theorem auth_middleware_spec_witness :
    (str "k" ≠ [] ∧ str "/v1/chat/completions" ≠ str "/health" ∧ str "POST" ≠ str "OPTIONS")
    ∧ (authMiddleware (str "k") (str "/v1/chat/completions") (str "POST") (str "Bearer k")
        = .pass ↔ str "Bearer k" = bearer ++ str "k") := by
  refine ⟨by decide, ?_⟩
  exact ((auth_middleware_spec (str "k") (str "/v1/chat/completions") (str "POST")
    (str "Bearer k")).2.2.2 (by decide) (by decide) (by decide)).1

/-- C2 counterexample: with declared dimension 4, a non-empty upstream
vector of length 2 (shorter than 4) is returned unchanged — the function
does not return a `DimensionMismatch` (or any) error, contradicting the
claim that a short vector is a hard error. -/
theorem embedFunc_short_vector_cex :
    embedFuncPost 4 [([1, 2] : List Int)] = .ok [1, 2]
    ∧ ([1, 2] : List Int).length < 4 ∧ ([1, 2] : List Int) ≠ [] := by
  refine ⟨rfl, by decide, by decide⟩

/-- C2 amended: the embedding function truncates a longer-than-`dims`
first vector to exactly `dims` elements, and returns a non-empty vector of
length at most `dims` unchanged (no error, no padding). -/
theorem embedFunc_truncate_only {α : Type} (dims : Int) (v : List α) (rest : List (List α))
    (hd : 0 < dims) (hv : v ≠ []) :
    (dims < (v.length : Int) →
      embedFuncPost dims (v :: rest) = .ok (v.take dims.toNat)
      ∧ (v.take dims.toNat).length = dims.toNat)
    ∧ ((v.length : Int) ≤ dims → embedFuncPost dims (v :: rest) = .ok v) := by
  have hne : v.isEmpty = false := by
    cases v with
    | nil => exact absurd rfl hv
    | cons a t => rfl
  constructor
  · intro hlong
    constructor
    · simp [embedFuncPost, hne, hd, hlong]
    · rw [List.length_take]
      have : dims.toNat ≤ v.length := by omega
      omega
  · intro hshort
    have : ¬ (0 < dims ∧ dims < (v.length : Int)) := by omega
    simp [embedFuncPost, hne, this]

/-- Witness for `embedFunc_truncate_only`: dimension 2, vector of length 3
is truncated to exactly 2 elements. -/
theorem embedFunc_truncate_only_witness :
    (0 < (2 : Int) ∧ ([5, 6, 7] : List Int) ≠ []
      ∧ (2 : Int) < ((([5, 6, 7] : List Int).length : Int)))
    ∧ (embedFuncPost 2 [([5, 6, 7] : List Int)] = .ok [5, 6]
        ∧ (([5, 6, 7] : List Int).take (2 : Int).toNat).length = (2 : Int).toNat) := by
  refine ⟨⟨by decide, by decide, by decide⟩, ?_⟩
  have h := (embedFunc_truncate_only 2 ([5, 6, 7] : List Int) [] (by decide) (by decide)).1
    (by decide)
  exact ⟨h.1, h.2⟩

/-- C3 counterexample: with configured dimensions 4 and a non-empty batch,
the `EmbedBatch` request body carries `dimensions: 4` (the claim says the
field is always omitted), and a returned 6-long vector is stored verbatim
with no local truncation to 4. -/
theorem embedBatch_dimensions_cex :
    (embedBatchRequest (str "m") 4 [str "a"]).dimensionsField = some 4
    ∧ (embedBatchRequest (str "m") 4 [str "a"]).dimensionsField ≠ none
    ∧ embedBatchResult 1 [(0, ([1, 2, 3, 4, 5, 6] : List Int))] = [some [1, 2, 3, 4, 5, 6]]
    ∧ (6 : Nat) > 4 := by
  exact ⟨rfl, by decide, by decide, by decide⟩

/-- Helper: every slot of the folded result array is a slot of the initial
array or holds one of the response embeddings verbatim. -/
theorem foldl_set_mem {α : Type} :
    ∀ (data : List (Nat × List α)) (init : List (Option (List α)))
      (x : Option (List α)),
      x ∈ data.foldl (fun res d => res.set d.1 (some d.2)) init →
      x ∈ init ∨ ∃ d ∈ data, x = some d.2 := by
  intro data
  induction data with
  | nil => intro init x hx; exact Or.inl hx
  | cons d rest ih =>
    intro init x hx
    simp only [List.foldl_cons] at hx
    rcases ih (init.set d.1 (some d.2)) x hx with hmem | ⟨e, he, hv⟩
    · rcases List.mem_or_eq_of_mem_set hmem with h0 | hval
      · exact Or.inl h0
      · exact Or.inr ⟨d, List.mem_cons_self _ _, hval⟩
    · exact Or.inr ⟨e, List.mem_cons_of_mem _ he, hv⟩

/-- C3 amended: `EmbedBatch` includes the `dimensions` field in the request
body exactly when the configured dimensions are positive, and performs no
local truncation — every filled slot of the result carries a response
embedding verbatim. -/
theorem embedBatch_request_spec {α : Type} (model : List Char) (dims : Int)
    (texts : List (List Char)) (n : Nat) (data : List (Nat × List α)) :
    (0 < dims → (embedBatchRequest model dims texts).dimensionsField = some dims)
    ∧ (dims ≤ 0 → (embedBatchRequest model dims texts).dimensionsField = none)
    ∧ (∀ x ∈ embedBatchResult n data, x = none ∨ ∃ d ∈ data, x = some d.2) := by
  refine ⟨?_, ?_, ?_⟩
  · intro h; simp [embedBatchRequest, h]
  · intro h
    have : ¬ 0 < dims := by omega
    simp [embedBatchRequest, this]
  · intro x hx
    rcases foldl_set_mem data (List.replicate n none) x hx with hmem | hdata
    · exact Or.inl (List.eq_of_mem_replicate hmem)
    · exact Or.inr hdata

/-- Witness for `embedBatch_request_spec`: positive configured dimensions
put `dimensions: 3` into the request body. -/
theorem embedBatch_request_spec_witness :
    0 < (3 : Int)
    ∧ (embedBatchRequest (str "m") 3 [str "t"]).dimensionsField = some 3 := by
  refine ⟨by decide, ?_⟩
  exact (embedBatch_request_spec (α := List Int) (str "m") 3 [str "t"] 1 []).1 (by decide)

/-!
## C1 — chunker (`ChunkText` and `SplitBySentence`, src/unnamed/part_004).

`Options` carries non-negative sizes: `NewChunker` rejects non-positive
`ChunkSize` and clamps negative `Overlap` to 0, and the claim assumes
`chunk_size > 0`, `overlap ≥ 0`.  `ChunkText` walks rune windows, so the
text is the rune list itself; `builder.Len()` counts bytes in Go, which
equals the character count on ASCII input.
-/

/-- Chunking options (`chunker.Options`). -/
structure ChunkOptions where
  chunkSize : Nat
  overlap : Nat
deriving DecidableEq, Repr

/-- An emitted chunk (`chunker.Chunk`). -/
structure Chunk where
  id : List Char
  content : List Char
  source : List Char
  index : Nat
deriving DecidableEq, Repr

/-- Go `strings.ReplaceAll(text, "\r\n", "\n")`: leftmost non-overlapping. -/
def replCRLF : List Char → List Char
  | '\r' :: '\n' :: t => '\n' :: replCRLF t
  | c :: t => c :: replCRLF t
  | [] => []

/-- Go `strings.Split(text, "\n\n")`: leftmost non-overlapping split on a
blank line. -/
def splitPar : List Char → List (List Char)
  | '\n' :: '\n' :: t => [] :: splitPar t
  | c :: t =>
    match splitPar t with
    | [] => [[c]]
    | p :: ps => (c :: p) :: ps
  | [] => [[]]

/-- `buildChunkID`: the empty-source branch lowercases/underscores the empty
string (yielding the bare `_<idx>` id); otherwise `/`, `\`, `.` and space in
the source are replaced by `_`. -/
def buildChunkID (source : List Char) (idx : Nat) : List Char :=
  if source = [] then '_' :: itoa idx
  else
    (source.map fun c =>
      if c = '/' ∨ c = '\\' ∨ c = '.' ∨ c = ' ' then '_' else c) ++ '_' :: itoa idx

/-- The window loop of `ChunkText`, with explicit fuel standing in for the
Go `for` loop (the fuel passed by `chunkText` is enough for every positive
step). `start` and `idx` are the Go loop variables. -/
def ctLoop (runes : List Char) (total csize step : Nat) (source : List Char) :
    Nat → Nat → Nat → List Chunk
  | 0, _, _ => []
  | fuel + 1, start, idx =>
    if total ≤ start then []
    else
      let e := min (start + csize) total
      let content := trimSpace ((runes.drop start).take (e - start))
      if content = [] then ctLoop runes total csize step source fuel (start + step) (idx + 1)
      else
        let ch : Chunk := ⟨buildChunkID source idx, content, source, idx⟩
        if e = total then [ch]
        else ch :: ctLoop runes total csize step source fuel (start + step) (idx + 1)

/-- `ChunkText`: normalize CR-LF, then slide a `chunkSize` window with
stride `chunkSize - overlap` (falling back to `chunkSize` when that stride
is not positive), trimming each window and skipping empty ones. -/
def chunkText (opts : ChunkOptions) (text source : List Char) : List Chunk :=
  if text = [] then []
  else
    let runes := replCRLF text
    let total := runes.length
    let step := if opts.chunkSize ≤ opts.overlap then opts.chunkSize
      else opts.chunkSize - opts.overlap
    ctLoop runes total opts.chunkSize step source (total + 1) 0 0

/-- The paragraph accumulation step of `SplitBySentence`: append `para` to
the builder, preceded by a blank line when the builder is non-empty. -/
def sbsAppend (builder para : List Char) : List Char :=
  if builder = [] then para else builder ++ '\n' :: '\n' :: para

/-- The paragraph loop of `SplitBySentence` (src/unnamed/part_004): flush
when the pending builder plus the next paragraph would exceed `chunkSize`,
then append the paragraph regardless of its own length.  A flush emits the
trimmed builder when non-empty.  The trailing flush is the `[]` case. -/
def sbsLoop (csize : Nat) (source : List Char) :
    List (List Char) → List Char → Nat → List Chunk
  | [], builder, idx =>
    let content := trimSpace builder
    if content = [] then [] else [⟨buildChunkID source idx, content, source, idx⟩]
  | para :: rest, builder, idx =>
    let para := trimSpace para
    if para = [] then sbsLoop csize source rest builder idx
    else if csize < builder.length + para.length then
      let content := trimSpace builder
      if content = [] then sbsLoop csize source rest (sbsAppend [] para) idx
      else ⟨buildChunkID source idx, content, source, idx⟩ ::
        sbsLoop csize source rest (sbsAppend [] para) (idx + 1)
    else sbsLoop csize source rest (sbsAppend builder para) idx

/-- `SplitBySentence` (src/unnamed/part_004): split on blank lines and
accumulate paragraphs; despite its name it performs no sentence splitting
and no character-window fallback.  UTF-8 validity always holds in the
rune-list model. -/
def splitBySentence (opts : ChunkOptions) (text source : List Char) : List Chunk :=
  sbsLoop opts.chunkSize source (splitPar text) [] 0

/-- C1 (failing-input evaluation): with `chunk_size = 5`, `overlap = 2`, the
single-paragraph text `abcdefghij` makes `SplitBySentence` emit one chunk of
length 10 > 5 + 2, violating the claimed bound — while `ChunkText` on the
same input stays within `chunk_size`.  The chunker package's own tests
(`TestSplitBySentence_OversizedParagraph`) assert the claimed bound. -/
theorem splitBySentence_oversized_eval :
    splitBySentence ⟨5, 2⟩ (str "abcdefghij") (str "src")
      = [⟨str "src_0", str "abcdefghij", str "src", 0⟩]
    ∧ (str "abcdefghij").length = 10 ∧ 5 + 2 < 10
    ∧ chunkText ⟨5, 2⟩ (str "abcdefghij") (str "src")
      = [⟨str "src_0", str "abcde", str "src", 0⟩,
         ⟨str "src_1", str "defgh", str "src", 1⟩,
         ⟨str "src_2", str "ghij", str "src", 2⟩]
    ∧ ∀ ch ∈ chunkText ⟨5, 2⟩ (str "abcdefghij") (str "src"), ch.content.length ≤ 5 := by
  refine ⟨by decide, by decide, by decide, by decide, by decide⟩

/-!
## C8 — graph store `AddTriples` (src/unnamed/part_010).

A triple of raw strings; `AddTriples` skips triples with an empty raw field,
then stores each remaining triple with `normalise` (TrimSpace) applied to
every field.  Cayley's `AddQuadSet` on the memstore backend is modelled as
appending quads not already present (exact-equality dedup); stored state is
the insertion-ordered list of quads.
-/

/-- A subject–predicate–object triple (`llm.Triple` / graph quads). -/
structure Triple where
  subject : List Char
  predicate : List Char
  object : List Char
deriving DecidableEq, Repr

/-- `normalise`: TrimSpace on one field. -/
def normalise (s : List Char) : List Char := trimSpace s

/-- `AddTriples`: drop triples with any empty raw field (the guard runs
before `normalise`), trim all fields of the survivors, insert with
exact-duplicate dedup. -/
def addTriples (store : List Triple) (ts : List Triple) : List Triple :=
  let quads := ts.filterMap fun t =>
    if t.subject = [] ∨ t.predicate = [] ∨ t.object = [] then none
    else some ⟨normalise t.subject, normalise t.predicate, normalise t.object⟩
  quads.foldl (fun st q => if q ∈ st then st else st ++ [q]) store

/-- C8 (failing-input evaluation): a triple whose subject is a single space
passes the pre-trim emptiness guard and is stored with an empty subject,
violating the claimed invariant that no stored field is empty. -/
theorem addTriples_whitespace_subject_eval :
    addTriples [] [⟨[' '], str "p", str "o"⟩] = [⟨[], str "p", str "o"⟩]
    ∧ (⟨[], str "p", str "o"⟩ : Triple).subject = [] := by
  exact ⟨by decide, rfl⟩

/-!
## C4 / C5 — hybrid search engine (`hybridSearch` and
`handleChatCompletions`, src/unnamed/part_014).

The vector query and graph search are upstream stores; their outcomes enter
as `Except` values.  The optional reranker client enters as an oracle from
(query, documents) to relevance scores; the point of C4 is whether
`hybridSearch` ever consults it.  `float32` similarities are rationals and
`%.2f` is two-decimal rendering.
-/

/-- One vector search hit (`vector.SearchResult`). -/
structure VHit where
  id : List Char
  content : List Char
  source : List Char
  similarity : ℚ
deriving DecidableEq, Repr

/-- One graph search result (`graph.SearchResult`); the float64 score only
ever takes whole-number values (one per matching token), hence `Nat`. -/
structure GSearchResult where
  subject : List Char
  predicate : List Char
  object : List Char
  score : Nat
deriving DecidableEq, Repr

/-- A configured reranker, as the relevance-score oracle of its `/rerank`
endpoint: query and documents in, one relevance score per document out. -/
def RerankFn : Type := List Char → List (List Char) → List ℚ

/-- `fmt.Sprintf` with `%.2f`: render a rational rounded to two decimal
places (float32 formatting modelled on ℚ). -/
def fmtSim (q : ℚ) : List Char :=
  let n : Int := Int.floor (q * 100 + 1 / 2)
  let a : Nat := n.natAbs
  (if n < 0 then ['-'] else []) ++ itoa (a / 100) ++
    '.' :: [Char.ofNat (48 + (a / 10) % 10), Char.ofNat (48 + a % 10)]

/-- The per-hit lines of the `## Relevant Knowledge` section; `i` is the Go
loop index (printed as `i+1`). -/
def formatVecHits : Nat → List VHit → List Char
  | _, [] => []
  | i, r :: rest =>
    str "**[" ++ itoa (i + 1) ++ str "] Source: " ++ r.source ++
      str "** (similarity: " ++ fmtSim r.similarity ++ str ")\n" ++
      r.content ++ str "\n\n" ++ formatVecHits (i + 1) rest

/-- The fact lines of `graph.FormatResults`. -/
def formatFacts : List GSearchResult → List Char
  | [] => []
  | r :: rest =>
    str "- " ++ r.subject ++ ' ' :: r.predicate ++ ' ' :: r.object ++
      '\n' :: formatFacts rest

/-- `graph.FormatResults`: empty for no results, else a headed fact list. -/
def formatGraphResults (gres : List GSearchResult) : List Char :=
  if gres.isEmpty then [] else str "Knowledge Graph Facts:\n" ++ formatFacts gres

/-- The context block built by `hybridSearch` from the two result lists:
vector section when hits exist, then the graph section when
`FormatResults` is non-empty. -/
def contextFormat (vres : List VHit) (gres : List GSearchResult) : List Char :=
  let vecPart := if vres.isEmpty then []
    else str "## Relevant Knowledge\n\n" ++ formatVecHits 0 vres
  let gctx := formatGraphResults gres
  let gPart := if gctx = [] then []
    else str "\n## Knowledge Graph Context\n\n" ++ gctx
  vecPart ++ gPart

/-- `hybridSearch`: a vector-search error is fatal (wrapped and returned); a
graph-search error is non-fatal (`graphResults = nil`); the reranker field
of the server is never consulted. -/
def hybridSearch (vec : Except (List Char) (List VHit))
    (gr : Except (List Char) (List GSearchResult)) (rr : Option RerankFn) :
    Except (List Char) (List Char) :=
  match vec with
  | .error e => .error (str "vector search: " ++ e)
  | .ok vres =>
    let gres := match gr with
      | .error _ => ([] : List GSearchResult)
      | .ok g => g
    .ok (contextFormat vres gres)

/-- The retrieval step of `handleChatCompletions`: a failed hybrid search
degrades to the empty context. -/
def chatRetrievedContext (vec : Except (List Char) (List VHit))
    (gr : Except (List Char) (List GSearchResult)) (rr : Option RerankFn) : List Char :=
  match hybridSearch vec gr rr with
  | .error _ => []
  | .ok s => s

/-- Stable descending insertion by a rational key (used only by the
spec-modelled reranked pipeline below). -/
def insertDescBy {β : Type} (key : β → ℚ) (x : β) : List β → List β
  | [] => [x]
  | y :: ys => if key y < key x then x :: y :: ys else y :: insertDescBy key x ys

/-- Stable descending sort by a rational key. -/
def sortDescBy {β : Type} (key : β → ℚ) (l : List β) : List β :=
  l.foldl (fun acc x => insertDescBy key x acc) []

/-- Modelled from the spec: the reranked hybrid search §4.6 describes — when
a reranker is configured and at least two vector hits exist, send the query
and the hit contents to the reranker and reorder the vector hits by
relevance score descending before formatting.  Absent from the source:
`hybridSearch` never calls the reranker. -/
def hybridSearchSpec (query : List Char) (vec : Except (List Char) (List VHit))
    (gr : Except (List Char) (List GSearchResult)) (rr : Option RerankFn) :
    Except (List Char) (List Char) :=
  match vec with
  | .error e => .error (str "vector search: " ++ e)
  | .ok vres =>
    let vres' := match rr with
      | some f =>
        if 2 ≤ vres.length then
          ((vres.zip (f query (vres.map VHit.content))).foldl
            (fun acc x => insertDescBy Prod.snd x acc) []).map Prod.fst
        else vres
      | none => vres
    let gres := match gr with
      | .error _ => ([] : List GSearchResult)
      | .ok g => g
    .ok (contextFormat vres' gres)

/-- Concrete vector hits and reranker for the C4 counterexample: the
reranker scores the second document strictly higher. -/
def cexHits : List VHit :=
  [⟨str "id1", str "A", str "s1", 9 / 10⟩, ⟨str "id2", str "B", str "s2", 4 / 5⟩]

/-- The counterexample reranker oracle. -/
def cexRerank : RerankFn := fun _ _ => [0, 1]

/-- C4 counterexample: with a configured reranker and two vector hits whose
rerank scores reverse their order, the code's `hybridSearch` output differs
from the spec-described reranked output — the code never sends the hits to
the reranker and keeps the vector store's order. -/
theorem hybridSearch_no_rerank_cex :
    (hybridSearch (.ok cexHits) (.ok []) (some cexRerank)).toOption
      ≠ (hybridSearchSpec (str "q") (.ok cexHits) (.ok []) (some cexRerank)).toOption
    ∧ hybridSearch (.ok cexHits) (.ok []) (some cexRerank)
        = .ok (contextFormat cexHits [])
    ∧ 2 ≤ cexHits.length := by
  refine ⟨by decide, rfl, by decide⟩

/-- C4 amended: `hybridSearch` never consults the reranker — its output is
identical under any two reranker configurations, and on successful searches
it is the formatted context of the vector hits in vector-store order. -/
theorem hybridSearch_reranker_independent (vec : Except (List Char) (List VHit))
    (gr : Except (List Char) (List GSearchResult)) (rr rr' : Option RerankFn) :
    hybridSearch vec gr rr = hybridSearch vec gr rr'
    ∧ ∀ (vres : List VHit) (gres : List GSearchResult),
        hybridSearch (.ok vres) (.ok gres) rr = .ok (contextFormat vres gres) := by
  exact ⟨rfl, fun _ _ => rfl⟩

/-- C5: a graph-search failure is non-fatal — `hybridSearch` still returns
the vector-only context block without error; a vector-search failure is
returned as an error to the caller, and the REST chat handler then proceeds
with the empty context. -/
theorem hybridSearch_failure_modes (vres : List VHit)
    (g : Except (List Char) (List GSearchResult)) (e e' : List Char)
    (rr : Option RerankFn) :
    hybridSearch (.ok vres) (.error e) rr = .ok (contextFormat vres [])
    ∧ hybridSearch (.error e') g rr = .error (str "vector search: " ++ e')
    ∧ chatRetrievedContext (.error e') g rr = [] := by
  exact ⟨rfl, rfl, rfl⟩

/-!
## C10 — MCP tool call (`mcpCallTool` and `buildMCPTools`,
src/unnamed/part_013).

`tools/call` params carry a tool name and an `arguments` object; the
`query` argument is read as a string (a missing or non-string value reads
as the empty string) and `top_k` as a JSON number.  The server's hybrid
search enters as a function of the query, closing over the stores'
contents.
-/

/-- A JSON-RPC error (`MCPError`). -/
structure MCPErr where
  code : Int
  message : List Char
deriving DecidableEq, Repr

/-- One content item of a tool result. -/
structure MCPContentItem where
  type : List Char
  text : List Char
deriving DecidableEq, Repr

/-- Parsed `tools/call` params (name, `query` argument, optional `top_k`
argument; the JSON float64 is modelled at the integer values used). -/
structure MCPCallParams where
  name : List Char
  query : List Char
  topK : Option Int
deriving DecidableEq, Repr

/-- `mcpCallTool`: reject an empty query; parse and bound-check `top_k`
(default 5) — the parsed value is then discarded (`_ = topK` in the
source); run the hybrid search on the query alone and wrap the block as a
single text content item. -/
def mcpCallTool (p : MCPCallParams)
    (hybrid : List Char → Except (List Char) (List Char)) :
    Except MCPErr (List MCPContentItem) :=
  if p.query = [] then .error ⟨-32602, str "query argument is required"⟩
  else
    let _topK : Int := match p.topK with
      | some tk => if 0 < tk then tk else 5
      | none => 5
    match hybrid p.query with
    | .error e => .error ⟨-32603, str "search error: " ++ e⟩
    | .ok ctx => .ok [⟨str "text", ctx⟩]

/-- A schema property of an MCP tool parameter. -/
structure MCPToolProp where
  type : List Char
  description : List Char
deriving DecidableEq, Repr

/-- An MCP tool input schema; the Go `map[string]MCPProp` is an association
list. -/
structure MCPToolSchema where
  type : List Char
  properties : List (List Char × MCPToolProp)
  required : List (List Char)
deriving DecidableEq, Repr

/-- An advertised MCP tool. -/
structure MCPToolDef where
  name : List Char
  description : List Char
  inputSchema : MCPToolSchema
deriving DecidableEq, Repr

/-- A tool entry of the agent manifest. -/
structure CfgTool where
  name : List Char
  description : List Char
deriving DecidableEq, Repr

/-- `buildMCPTools`: each manifest tool is advertised with a required
`query:string` and an optional `top_k:integer`; with no manifest tools a
default search tool (without `top_k`) is synthesized from the agent name. -/
def buildMCPTools (agentName agentDesc : List Char) (cfgTools : List CfgTool) :
    List MCPToolDef :=
  let tools := cfgTools.map fun t =>
    { name := t.name
    , description := t.description
    , inputSchema :=
      { type := str "object"
      , properties :=
        [ (str "query", ⟨str "string", str "The search query to find relevant information"⟩)
        , (str "top_k", ⟨str "integer", str "Number of results to return (default: 5)"⟩) ]
      , required := [str "query"] } }
  if tools.isEmpty then
    let slug := toLowerL (agentName.map fun c => if c = ' ' then '_' else c)
    [ { name := str "search_" ++ slug ++ str "_knowledge"
      , description := agentDesc
      , inputSchema :=
        { type := str "object"
        , properties := [(str "query", ⟨str "string", str "The search query"⟩)]
        , required := [str "query"] } } ]
  else tools

/-- C10: a `tools/call` result depends only on the query and the stores (the
hybrid-search oracle) — any two calls with the same query and different
`top_k` values return identical content — even though every tool built from
a non-empty manifest advertises an optional `top_k:integer` (`query` alone
is required). -/
theorem mcpCallTool_topk_ignored
    (hybrid : List Char → Except (List Char) (List Char))
    (name q : List Char) (tk tk' : Option Int) :
    mcpCallTool ⟨name, q, tk⟩ hybrid = mcpCallTool ⟨name, q, tk'⟩ hybrid
    ∧ (∀ (an ad : List Char) (cfgTools : List CfgTool), cfgTools ≠ [] →
        ∀ t ∈ buildMCPTools an ad cfgTools,
          t.inputSchema.required = [str "query"]
          ∧ (str "top_k", (⟨str "integer",
              str "Number of results to return (default: 5)"⟩ : MCPToolProp))
              ∈ t.inputSchema.properties
          ∧ str "top_k" ∉ t.inputSchema.required) := by
  constructor
  · simp only [mcpCallTool]
  · intro an ad cfgTools hne t ht
    cases cfgTools with
    | nil => exact absurd rfl hne
    | cons a l =>
      simp only [buildMCPTools, List.map_cons, List.isEmpty_cons, if_neg] at ht
      rcases List.mem_cons.mp ht with rfl | hrest
      · exact ⟨rfl, by simp, (by decide : str "top_k" ∉ [str "query"])⟩
      · rw [List.mem_map] at hrest
        obtain ⟨c, _, rfl⟩ := hrest
        exact ⟨rfl, by simp, (by decide : str "top_k" ∉ [str "query"])⟩

/-- Witness for `mcpCallTool_topk_ignored` at a one-tool manifest. -/
theorem mcpCallTool_topk_ignored_witness :
    ([(⟨str "t", str "d"⟩ : CfgTool)] ≠ [])
    ∧ ∀ t ∈ buildMCPTools (str "a") (str "d") [⟨str "t", str "d"⟩],
        t.inputSchema.required = [str "query"]
        ∧ (str "top_k", (⟨str "integer",
            str "Number of results to return (default: 5)"⟩ : MCPToolProp))
            ∈ t.inputSchema.properties
        ∧ str "top_k" ∉ t.inputSchema.required := by
  refine ⟨by decide, ?_⟩
  exact (mcpCallTool_topk_ignored (fun _ => .ok []) (str "t") (str "q") none (some 3)).2
    (str "a") (str "d") [⟨str "t", str "d"⟩] (by decide)

/-!
## C9 — lenient triple parsing (`parseTriples`, src/unnamed/part_011).

`encoding/json.Unmarshal` into `[]Triple` is the external decoder; it
enters as a function `decode` from the extracted slice to triples or an
error, so the fence-stripping property below holds for every decoder.
-/

/-- The markdown fence token. -/
def fence : List Char := [backtick, backtick, backtick]

/-- Everything after the first newline (`strings.SplitN(raw, "\n", 2)[1]`),
or `none` when the text has no newline (a one-element split). -/
def afterFirstNl : List Char → Option (List Char)
  | [] => none
  | c :: t => if c = '\n' then some t else afterFirstNl t

/-- The fence-stripping step of `parseTriples`: when the trimmed text opens
with a fence, drop its first line, trim a trailing fence token, and trim
whitespace again. -/
def stripFences (r1 : List Char) : List Char :=
  if fence.isPrefixOf r1 then
    trimSpace (goStripSuf fence ((afterFirstNl r1).getD r1))
  else r1

/-- Index of the last occurrence of `c` (Go `strings.LastIndex`). -/
def lastIdxOf (c : Char) (l : List Char) : Option Nat :=
  match List.findIdx? (fun x => x = c) l.reverse with
  | none => none
  | some i => some (l.length - 1 - i)

/-- Array extraction and decoding of `parseTriples`: slice from the first
opening to the last closing bracket (an absent or inverted pair yields the
empty triple list rather than an error), decode, then drop triples with an
empty field. -/
def parseCore (decode : List Char → Except (List Char) (List Triple))
    (r2 : List Char) : Except (List Char) (List Triple) :=
  match List.findIdx? (fun c => c = '[') r2, lastIdxOf ']' r2 with
  | some i, some j =>
    if j < i then .ok []
    else
      match decode ((r2.drop i).take (j + 1 - i)) with
      | .error e => .error (str "unmarshal triples JSON: " ++ e)
      | .ok triples => .ok (triples.filter fun t =>
          !t.subject.isEmpty && !t.predicate.isEmpty && !t.object.isEmpty)
  | _, _ => .ok []

/-- `parseTriples`: trim, strip markdown fences, extract and decode the
outermost bracketed slice, filter incomplete triples. -/
def parseTriples (decode : List Char → Except (List Char) (List Triple))
    (raw : List Char) : Except (List Char) (List Triple) :=
  parseCore decode (stripFences (trimSpace raw))

/-- Wrapping a text in markdown code fences, the way an LLM reply would. -/
def fenceWrap (s : List Char) : List Char := fence ++ '\n' :: s ++ '\n' :: fence

/-- A non-space head keeps the left trim inert. -/
theorem trimLeft_cons_nonspace {c : Char} (h : isGoSpace c = false) (l : List Char) :
    trimLeft (c :: l) = c :: l := by
  simp [trimLeft, List.dropWhile_cons, h]

/-- A non-space last element keeps the right trim inert. -/
theorem trimRight_append_nonspace {c : Char} (h : isGoSpace c = false) (l : List Char) :
    trimRight (l ++ [c]) = l ++ [c] := by
  simp [trimRight, List.dropWhile_cons, h]

/-- Fence-wrapped text is already trimmed. -/
theorem trim_fenceWrap (s : List Char) : trimSpace (fenceWrap s) = fenceWrap s := by
  have h1 : fenceWrap s = (fence ++ '\n' :: s ++ ['\n', backtick, backtick]) ++ [backtick] := by
    simp [fenceWrap, fence]
  have h2 : fenceWrap s = backtick :: (backtick :: backtick :: '\n' :: (s ++ '\n' :: fence)) := by
    simp [fenceWrap, fence]
  rw [trimSpace, h1, trimRight_append_nonspace (by decide), ← h1, h2,
    trimLeft_cons_nonspace (by decide)]

/-- A trailing space-class character is removed by trimming. -/
theorem trimSpace_append_newline (s : List Char) :
    trimSpace (s ++ ['\n']) = trimSpace s := by
  unfold trimSpace trimRight
  rw [List.reverse_append]
  have h : isGoSpace '\n' = true := by decide
  simp [List.dropWhile_cons, h]

/-- Dropping the fence suffix recovers the front part. -/
theorem goStripSuf_append (xs : List Char) :
    goStripSuf fence (xs ++ fence) = xs := by
  unfold goStripSuf
  have hsuf : fence.isSuffixOf (xs ++ fence) = true := by
    rw [List.isSuffixOf_iff_suffix]
    exact ⟨xs, rfl⟩
  rw [if_pos hsuf]
  have hlen : (xs ++ fence).length - fence.length = xs.length := by
    simp
  rw [hlen, List.take_left]

/-- `afterFirstNl` of fence-wrapped text is everything after the fence
line. -/
theorem afterFirstNl_fenceWrap (s : List Char) :
    afterFirstNl (fenceWrap s) = some (s ++ '\n' :: fence) := by
  have h : ¬ (backtick = '\n') := by decide
  simp [fenceWrap, fence, afterFirstNl, h]

/-- Text whose trimmed form opens with `[` does not open with a fence. -/
theorem not_fence_of_bracket {s : List Char} (h : (trimSpace s).head? = some '[') :
    fence.isPrefixOf (trimSpace s) = false := by
  cases hts : trimSpace s with
  | nil => rw [hts] at h; cases h
  | cons c t =>
    rw [hts] at h
    have : c = '[' := by
      simpa using h
    subst this
    have hb : (backtick == '[') = false := by decide
    simp [fence, List.isPrefixOf, hb]

/-- C9: for a text that is (modulo surrounding whitespace) a JSON array —
trimmed head `[` and trimmed last `]` — `parseTriples` of the text wrapped
in markdown code fences equals `parseTriples` of the unwrapped text, for
every JSON decoder. -/
theorem parseTriples_fence_invariant
    (decode : List Char → Except (List Char) (List Triple)) (s : List Char)
    (hhead : (trimSpace s).head? = some '[')
    (hlast : (trimSpace s).getLast? = some ']') :
    parseTriples decode (fenceWrap s) = parseTriples decode s := by
  unfold parseTriples
  have hstripL : stripFences (trimSpace (fenceWrap s)) = trimSpace s := by
    rw [trim_fenceWrap]
    unfold stripFences
    have hpre : fence.isPrefixOf (fenceWrap s) = true := by
      rw [List.isPrefixOf_iff_prefix]
      exact ⟨'\n' :: s ++ '\n' :: fence, by simp [fenceWrap]⟩
    rw [if_pos hpre, afterFirstNl_fenceWrap]
    show trimSpace (goStripSuf fence (s ++ '\n' :: fence)) = trimSpace s
    have : s ++ '\n' :: fence = (s ++ ['\n']) ++ fence := by simp
    rw [this, goStripSuf_append, trimSpace_append_newline]
  have hstripR : stripFences (trimSpace s) = trimSpace s := by
    unfold stripFences
    rw [not_fence_of_bracket hhead]
    simp
  rw [hstripL, hstripR]

/-- Witness for `parseTriples_fence_invariant` on the literal array `[]`. -/
theorem parseTriples_fence_invariant_witness :
    ((trimSpace (str "[]")).head? = some '[' ∧ (trimSpace (str "[]")).getLast? = some ']')
    ∧ parseTriples (fun _ => .ok []) (fenceWrap (str "[]"))
        = parseTriples (fun _ => .ok []) (str "[]") := by
  refine ⟨⟨by decide, by decide⟩, ?_⟩
  exact parseTriples_fence_invariant (fun _ => .ok []) (str "[]") (by decide) (by decide)

/-!
## C7 — graph store `Search` and `scoreMatch` (src/unnamed/part_010).

The stored graph is the insertion-ordered list of quads (cayley memstore
iteration follows insertion order); `quadValueStr` reduces to TrimSpace in
this model (the quote layer added and removed around `quad.StringOf` is the
identity).  The in-place insertion sort of the source — moving each element
left past strictly smaller scores — is modelled by stable descending
insertion over the scanned prefix.
-/

/-- `quadValueStr`: strip the value-quoting layer and trim. -/
def quadValueStr (v : List Char) : List Char := trimSpace v

/-- `scoreMatch`: one point per query term of length ≥ 3 contained in the
lowercased space-joined field values; terms are counted with multiplicity
(the float64 score only takes these whole values, hence `Nat`). -/
def scoreMatch (terms : List (List Char)) (values : List (List Char)) : Nat :=
  let combined := toLowerL (joinSpace values)
  terms.foldl (fun sc term =>
    if term.length < 3 then sc
    else if containsSub term combined then sc + 1 else sc) 0

/-- The dedup key `subj + "|" + pred + "|" + obj`. -/
def resultKey (s p o : List Char) : List Char := s ++ '|' :: p ++ '|' :: o

/-- The quad-iterator loop of `Search`: skip already-seen triples, collect
positive-scoring ones, and break once `cap` (`topK*3`) results are
collected.  `count` is `len(results)` so far. -/
def collectLoop (terms : List (List Char)) (cap : Nat) :
    List Triple → List (List Char) → Nat → List GSearchResult
  | [], _, _ => []
  | t :: rest, seen, count =>
    let subj := quadValueStr t.subject
    let pred := quadValueStr t.predicate
    let obj := quadValueStr t.object
    let key := resultKey subj pred obj
    if key ∈ seen then collectLoop terms cap rest seen count
    else
      let sc := scoreMatch terms [subj, pred, obj]
      if 0 < sc then
        if cap ≤ count + 1 then [⟨subj, pred, obj, sc⟩]
        else ⟨subj, pred, obj, sc⟩ :: collectLoop terms cap rest (key :: seen) (count + 1)
      else if cap ≤ count then []
      else collectLoop terms cap rest seen count

/-- One step of the source's in-place insertion sort: the new element moves
left past every element with a strictly smaller score. -/
def insResDesc (x : GSearchResult) : List GSearchResult → List GSearchResult
  | [] => [x]
  | y :: ys => if y.score < x.score then x :: y :: ys else y :: insResDesc x ys

/-- The source's insertion sort (score descending, stable). -/
def sortResultsDesc (l : List GSearchResult) : List GSearchResult :=
  l.foldl (fun acc x => insResDesc x acc) []

/-- `Search`: reject the empty query; coerce non-positive `topK` to 10;
tokenize the lowercased query on whitespace; scan, sort, truncate. -/
def graphSearch (store : List Triple) (query : List Char) (topK : Int) :
    Except (List Char) (List GSearchResult) :=
  if query = [] then .error (str "query cannot be empty")
  else
    let k : Nat := if topK ≤ 0 then 10 else topK.toNat
    let terms := fields (toLowerL query)
    .ok ((sortResultsDesc (collectLoop terms (k * 3) store [] 0)).take k)

/-- Modelled from the spec: the claimed scoring — the count of distinct
query tokens (deduplicated) of length ≥ 3 appearing case-insensitively in
the concatenated fields. -/
def distinctTokenScore (terms : List (List Char)) (values : List (List Char)) : Nat :=
  terms.dedup.countP fun tm =>
    decide (3 ≤ tm.length) && containsSub tm (toLowerL (joinSpace values))

/-- C7 counterexample: the query `cat cat` scores the triple
`(cat, likes, fish)` as 2 — one point per token occurrence — while the
claimed distinct-token count is 1; the returned score field shows the
difference. -/
theorem graphSearch_multiplicity_cex :
    graphSearch [⟨str "cat", str "likes", str "fish"⟩] (str "cat cat") 5
      = .ok [⟨str "cat", str "likes", str "fish", 2⟩]
    ∧ distinctTokenScore (fields (toLowerL (str "cat cat")))
        [str "cat", str "likes", str "fish"] = 1
    ∧ (2 : Nat) ≠ 1 := by
  exact ⟨rfl, by decide, by decide⟩

/-- `scoreMatch` counts the qualifying terms (with multiplicity). -/
theorem scoreMatch_eq_countP (terms values : List (List Char)) :
    scoreMatch terms values = terms.countP (fun tm =>
      decide (3 ≤ tm.length) && containsSub tm (toLowerL (joinSpace values))) := by
  unfold scoreMatch
  generalize toLowerL (joinSpace values) = combined
  suffices h : ∀ (ts : List (List Char)) (n : Nat),
      ts.foldl (fun sc term =>
        if term.length < 3 then sc
        else if containsSub term combined then sc + 1 else sc) n
      = n + ts.countP (fun tm => decide (3 ≤ tm.length) && containsSub tm combined) by
    simpa using h terms 0
  intro ts
  induction ts with
  | nil => intro n; simp
  | cons a l ih =>
    intro n
    rw [List.foldl_cons, ih, List.countP_cons]
    by_cases h3 : a.length < 3
    · have h4 : ¬ (3 ≤ a.length) := by omega
      simp [h3, h4]
    · have h4 : (3 ≤ a.length) := by omega
      cases hc : containsSub a combined <;> simp [h3, h4, hc] <;> omega

/-- Membership through one descending insertion. -/
theorem mem_insResDesc {x z : GSearchResult} :
    ∀ l, z ∈ insResDesc x l → z = x ∨ z ∈ l := by
  intro l
  induction l with
  | nil =>
    intro h
    exact Or.inl (List.mem_singleton.mp h)
  | cons y ys ih =>
    intro h
    unfold insResDesc at h
    by_cases hlt : y.score < x.score
    · rw [if_pos hlt] at h
      rcases List.mem_cons.mp h with rfl | h2
      · exact Or.inl rfl
      · exact Or.inr h2
    · rw [if_neg hlt] at h
      rcases List.mem_cons.mp h with rfl | h2
      · exact Or.inr (List.mem_cons_self _ _)
      · rcases ih h2 with h3 | h3
        · exact Or.inl h3
        · exact Or.inr (List.mem_cons_of_mem _ h3)

/-- Descending insertion preserves the descending pairwise order. -/
theorem pairwise_insResDesc {x : GSearchResult} :
    ∀ l, List.Pairwise (fun a b => b.score ≤ a.score) l →
      List.Pairwise (fun a b => b.score ≤ a.score) (insResDesc x l) := by
  intro l
  induction l with
  | nil => intro _; simp [insResDesc]
  | cons y ys ih =>
    intro h
    rcases List.pairwise_cons.mp h with ⟨hy, hys⟩
    unfold insResDesc
    by_cases hlt : y.score < x.score
    · rw [if_pos hlt]
      refine List.pairwise_cons.mpr ⟨?_, h⟩
      intro b hb
      rcases List.mem_cons.mp hb with rfl | hbys
      · omega
      · have := hy b hbys
        omega
    · rw [if_neg hlt]
      refine List.pairwise_cons.mpr ⟨?_, ih hys⟩
      intro b hb
      rcases mem_insResDesc _ hb with rfl | hbys
      · omega
      · exact hy b hbys

/-- Elements of the folded insertion sort come from the accumulator or the
input. -/
theorem mem_foldl_insResDesc {z : GSearchResult} :
    ∀ (l acc : List GSearchResult),
      z ∈ l.foldl (fun acc x => insResDesc x acc) acc → z ∈ acc ∨ z ∈ l := by
  intro l
  induction l with
  | nil => intro acc h; exact Or.inl h
  | cons x rest ih =>
    intro acc h
    rw [List.foldl_cons] at h
    rcases ih (insResDesc x acc) h with h2 | h2
    · rcases mem_insResDesc _ h2 with rfl | h3
      · exact Or.inr (List.mem_cons_self _ _)
      · exact Or.inl h3
    · exact Or.inr (List.mem_cons_of_mem _ h2)

/-- The folded insertion sort is pairwise descending. -/
theorem pairwise_foldl_insResDesc :
    ∀ (l acc : List GSearchResult),
      List.Pairwise (fun a b => b.score ≤ a.score) acc →
      List.Pairwise (fun a b => b.score ≤ a.score)
        (l.foldl (fun acc x => insResDesc x acc) acc) := by
  intro l
  induction l with
  | nil => intro acc h; exact h
  | cons x rest ih =>
    intro acc h
    rw [List.foldl_cons]
    exact ih _ (pairwise_insResDesc _ h)

/-- Every result collected by the scan loop has a positive score equal to
`scoreMatch` of its own (trimmed) fields, and its fields are the trimmed
fields of a stored triple. -/
theorem collectLoop_mem (terms : List (List Char)) (cap : Nat) :
    ∀ (store : List Triple) (seen : List (List Char)) (count : Nat),
      ∀ r ∈ collectLoop terms cap store seen count,
        0 < r.score
        ∧ r.score = scoreMatch terms [r.subject, r.predicate, r.object]
        ∧ ∃ t ∈ store, r.subject = quadValueStr t.subject
            ∧ r.predicate = quadValueStr t.predicate
            ∧ r.object = quadValueStr t.object := by
  intro store
  induction store with
  | nil => intro seen count r hr; cases hr
  | cons t rest ih =>
    intro seen count r hr
    unfold collectLoop at hr
    by_cases hseen :
        resultKey (quadValueStr t.subject) (quadValueStr t.predicate)
          (quadValueStr t.object) ∈ seen
    · rw [if_pos hseen] at hr
      obtain ⟨h1, h2, t', ht', h3⟩ := ih seen count r hr
      exact ⟨h1, h2, t', List.mem_cons_of_mem _ ht', h3⟩
    · rw [if_neg hseen] at hr
      by_cases hsc : 0 < scoreMatch terms
          [quadValueStr t.subject, quadValueStr t.predicate, quadValueStr t.object]
      · rw [if_pos hsc] at hr
        by_cases hcap : cap ≤ count + 1
        · rw [if_pos hcap] at hr
          have := List.mem_singleton.mp hr
          subst this
          exact ⟨hsc, rfl, t, List.mem_cons_self _ _, rfl, rfl, rfl⟩
        · rw [if_neg hcap] at hr
          rcases List.mem_cons.mp hr with rfl | hr2
          · exact ⟨hsc, rfl, t, List.mem_cons_self _ _, rfl, rfl, rfl⟩
          · obtain ⟨h1, h2, t', ht', h3⟩ := ih _ _ r hr2
            exact ⟨h1, h2, t', List.mem_cons_of_mem _ ht', h3⟩
      · rw [if_neg hsc] at hr
        by_cases hcap : cap ≤ count
        · rw [if_pos hcap] at hr; cases hr
        · rw [if_neg hcap] at hr
          obtain ⟨h1, h2, t', ht', h3⟩ := ih seen count r hr
          exact ⟨h1, h2, t', List.mem_cons_of_mem _ ht', h3⟩

/-- C7 amended: graph `Search` on a non-empty query returns, with `topK`
coerced to 10 when non-positive, at most `topK` results, pairwise sorted by
score descending, each with a positive score that counts the query tokens
(lowercased, whitespace-split, length ≥ 3, counted WITH multiplicity)
contained in the lowercased space-joined trimmed fields of some stored
triple.  (The scan also de-duplicates and stops after `topK*3` matches.) -/
theorem graphSearch_characterization (store : List Triple) (q : List Char)
    (topK : Int) (hq : q ≠ []) :
    ∃ rs, graphSearch store q topK = .ok rs
      ∧ rs.length ≤ (if topK ≤ 0 then 10 else topK.toNat)
      ∧ List.Pairwise (fun a b => b.score ≤ a.score) rs
      ∧ ∀ r ∈ rs, 0 < r.score
          ∧ r.score = (fields (toLowerL q)).countP (fun tm =>
              decide (3 ≤ tm.length) && containsSub tm
                (toLowerL (joinSpace [r.subject, r.predicate, r.object])))
          ∧ ∃ t ∈ store, r.subject = quadValueStr t.subject
              ∧ r.predicate = quadValueStr t.predicate
              ∧ r.object = quadValueStr t.object := by
  have hsearch : graphSearch store q topK
      = .ok ((sortResultsDesc (collectLoop (fields (toLowerL q))
          ((if topK ≤ 0 then 10 else topK.toNat) * 3) store [] 0)).take
          (if topK ≤ 0 then 10 else topK.toNat)) := by
    unfold graphSearch
    rw [if_neg hq]
  refine ⟨_, hsearch, ?_, ?_, ?_⟩
  · exact List.length_take_le _ _
  · exact List.Pairwise.sublist (List.take_sublist _ _)
      (pairwise_foldl_insResDesc _ [] List.Pairwise.nil)
  · intro r hr
    have hr2 := List.mem_of_mem_take hr
    have hr3 := mem_foldl_insResDesc _ [] hr2
    rcases hr3 with h0 | hcol
    · cases h0
    · obtain ⟨h1, h2, t', ht', h3⟩ := collectLoop_mem _ _ store [] 0 r hcol
      exact ⟨h1, by rw [h2, scoreMatch_eq_countP], t', ht', h3⟩

/-- Witness for `graphSearch_characterization` on a one-triple store and
the query `cat`. -/
theorem graphSearch_characterization_witness :
    (str "cat" ≠ [])
    ∧ ∃ rs, graphSearch [⟨str "cat", str "likes", str "fish"⟩] (str "cat") 5 = .ok rs
      ∧ rs.length ≤ (if (5 : Int) ≤ 0 then 10 else (5 : Int).toNat)
      ∧ List.Pairwise (fun a b => b.score ≤ a.score) rs
      ∧ ∀ r ∈ rs, 0 < r.score
          ∧ r.score = (fields (toLowerL (str "cat"))).countP (fun tm =>
              decide (3 ≤ tm.length) && containsSub tm
                (toLowerL (joinSpace [r.subject, r.predicate, r.object])))
          ∧ ∃ t ∈ [(⟨str "cat", str "likes", str "fish"⟩ : Triple)],
              r.subject = quadValueStr t.subject
              ∧ r.predicate = quadValueStr t.predicate
              ∧ r.object = quadValueStr t.object := by
  refine ⟨by decide, ?_⟩
  exact graphSearch_characterization [⟨str "cat", str "likes", str "fish"⟩]
    (str "cat") 5 (by decide)
